import Mathlib

/-! circleci-cli: the `config` commands (`src/cmd/config.go`)

A shallow embedding of the four `config` sub-commands (`validate`, `expand`,
`collapse`, `migrate`) and of the split-configuration tree composer that the
specification describes behind `filetree.NewTree` and `yaml.Marshal`.

Conventions of the embedding.

* A Go `error` value is a `GoError`; a nilable `error` is `Option GoError`
  (`none` is `nil`).
* A Go call returning `(value, err)` is an `Except GoError value`: the
  commands never look at the value when `err != nil`.
* The package-level `Logger` is the sequence of texts written to it, oldest
  first.  Collaborators of other packages (`api.ConfigQuery`,
  `filetree.NewTree`, `yaml.Marshal`, `proxy.Exec`) are fields of `Env`;
  every call made to one of them is recorded, in order, in `World.calls`.
* A run-time panic (indexing `args[0]` of an empty slice) is `none`.
-/

namespace CircleCI

/-! ## Errors (`error`, `github.com/pkg/errors`) -/

/-- A non-nil Go `error`: either an error made elsewhere, known by its message,
or the result of `errors.Wrap`, which keeps its cause. -/
inductive GoError where
  | mk (msg : String)
  | withMessage (cause : GoError) (msg : String)
deriving DecidableEq

/-- The `Error()` method.  For a wrapped error `pkg/errors` prints the message,
a colon and a blank, then the cause. -/
def GoError.Error : GoError → String
  | .mk msg => msg
  | .withMessage cause msg => msg ++ ": " ++ cause.Error

/-- The `errors.Cause` function: the innermost error of a chain of wraps. -/
def GoError.Cause : GoError → GoError
  | .mk msg => .mk msg
  | .withMessage cause _ => cause.Cause

/-- The `errors.Wrap(err, message)` function: `nil` for a `nil` error, otherwise
an error annotating `err` with `message`. -/
def errorsWrap (err : Option GoError) (message : String) : Option GoError :=
  match err with
  | none => none
  | some e => some (.withMessage e message)

/-! ## The output sink and the collaborators -/

/-- The state of the `Logger`: the texts written so far, oldest first. -/
abbrev Logger := List String

/-- `Logger.Info(s)` for one string argument writes the string itself. -/
def Logger.Info (l : Logger) (s : String) : Logger := l ++ [s]

/-- `Logger.Infof("Config file at %s is valid", path)`. -/
def Logger.InfofValid (l : Logger) (path : String) : Logger :=
  l ++ ["Config file at " ++ path ++ " is valid"]

/-- `Logger.Infof("%s\n", y)`. -/
def Logger.InfofLine (l : Logger) (y : String) : Logger := l ++ [y ++ "\n"]

/-- The part of `api.ConfigResponse` the commands read: the `Valid` and
`OutputYaml` fields and what the `ToError()` method returns. -/
structure ConfigResponse where
  Valid : Bool
  OutputYaml : String
  ToError : Option GoError
deriving DecidableEq

/-- One call to a collaborator, with the arguments it was given. -/
inductive Call where
  | ConfigQuery (path : String)
  | NewTree (root : String)
  | Marshal
  | Exec (command : List String) (args : List String)
deriving DecidableEq

/-- The collaborators, `τ` being the type of the tree `filetree.NewTree`
builds.  `api.ConfigQuery` is handed the `Logger`, so it maps the sink's state
to a new one as well as giving its result. -/
structure Env (τ : Type) where
  ConfigQuery : Logger → String → Logger × Except GoError ConfigResponse
  NewTree : String → Except GoError τ
  Marshal : τ → Except GoError String
  Exec : List String → List String → Option GoError

/-- What a command can change: the sink and the record of collaborator calls. -/
structure World where
  log : Logger
  calls : List Call
deriving DecidableEq

/-! ## `src/cmd/config.go` -/

/-- The constant `defaultConfigPath`. -/
def defaultConfigPath : String := ".circleci/config.yml"

/-- The function `validateConfig`; `configPath` is the package-level variable
bound to the hidden `--config` flag. -/
def validateConfig {τ : Type} (env : Env τ) (configPath : String) (args : List String)
    (w : World) : Option GoError × World :=
  let path := defaultConfigPath
  let path := if configPath ≠ "" then configPath else path
  let path := match args with
    | [a] => a
    | _ => path
  let (log, r) := env.ConfigQuery w.log path
  let w := { log := log, calls := w.calls ++ [Call.ConfigQuery path] }
  match r with
  | .error err => (some err, w)
  | .ok response =>
    if !response.Valid then
      (response.ToError, w)
    else
      (none, { w with log := w.log.InfofValid path })

/-- The function `expandConfig`; `none` is the panic of `args[0]` on an empty
slice. -/
def expandConfig {τ : Type} (env : Env τ) (args : List String) (w : World) :
    Option (Option GoError × World) :=
  match args with
  | [] => none
  | a :: _ =>
    let (log, r) := env.ConfigQuery w.log a
    let w := { log := log, calls := w.calls ++ [Call.ConfigQuery a] }
    match r with
    | .error err => some (some err, w)
    | .ok response =>
      if !response.Valid then
        some (response.ToError, w)
      else
        some (none, { w with log := w.log.Info response.OutputYaml })

/-- The function `collapseConfig`; `none` is the panic of `args[0]` on an empty
slice. -/
def collapseConfig {τ : Type} (env : Env τ) (args : List String) (w : World) :
    Option (Option GoError × World) :=
  match args with
  | [] => none
  | a :: _ =>
    let w := { w with calls := w.calls ++ [Call.NewTree a] }
    match env.NewTree a with
    | .error err => some (errorsWrap (some err) "An error occurred trying to build the tree", w)
    | .ok tree =>
      let w := { w with calls := w.calls ++ [Call.Marshal] }
      match env.Marshal tree with
      | .error err => some (errorsWrap (some err) "Failed trying to marshal the tree to YAML ", w)
      | .ok y => some (none, { w with log := w.log.InfofLine y })

/-- The function `migrateConfig`. -/
def migrateConfig {τ : Type} (env : Env τ) (args : List String) (w : World) :
    Option GoError × World :=
  (env.Exec ["config", "migrate"] args,
    { w with calls := w.calls ++ [Call.Exec ["config", "migrate"] args] })

/-- The arguments `cobra.MaximumNArgs(1)` lets through. -/
def MaximumNArgs1 (args : List String) : Prop := args.length ≤ 1

instance (args : List String) : Decidable (MaximumNArgs1 args) :=
  inferInstanceAs (Decidable (args.length ≤ 1))

/-! ## The split-configuration tree composer (specification, sections 3 and 4)

The package `filetree` and the `MarshalYAML` method its tree gives to
`yaml.Marshal` are not among the sources; what follows is written from the
specification's description of them. -/

/-- Modelled from the spec: the `content` of a document, absent from the sources
with the package `filetree`; "a generic structured value (map/sequence/scalar
tree) mirroring the parsed document, with key order preserved", here with a
fourth kind of value, the local reference, "a value inside a document that
names another document's relative path".  The convention by which the parser
tells a reference from other values is left open by the specification (its
example writes one as a mapping with the one key "include"), so a reference the
parser has recognised is a constructor of its own. -/
inductive Value where
  | scalar (s : String)
  | seq (items : List Value)
  | map (entries : List (String × Value))
  | reference (target : String)

/-- Modelled from the spec: what reading and parsing one path gives when the
file exists (the loader of the absent package `filetree`): a parsed document, or
the parser's diagnostic. -/
inductive File where
  | document (content : Value)
  | unparseable (diagnostic : String)

/-- Modelled from the spec: the failures of `compose` (absent package
`filetree`): `NotFound`, `ParseError` "wrapping the underlying parser's
diagnostic and the offending path", `CycleDetected` naming "the full reference
chain (sequence of paths) from root to the repeated path", and `DepthExceeded`. -/
inductive ComposeError where
  | NotFound (path : String)
  | ParseError (path : String) (diagnostic : String)
  | CycleDetected (chain : List String)
  | DepthExceeded (path : String)
deriving DecidableEq

/-- Modelled from the spec: the Document Node of the absent package `filetree`,
with its `sourcePath`, its `content` and its `children`, the "ordered sequence
of (referenceKey, owned child Document Node)".  A `referenceKey` is the
position of the reference inside `content`: the indices to follow from the
document's top, through sequence items and mapping entries. -/
inductive DocumentNode where
  | mk (sourcePath : String) (content : Value) (children : List (List Nat × DocumentNode))

/-- Modelled from the spec: the path arithmetic the absent package `filetree`
relies on: `normalize` ("resolve symlinks/./.. consistently so equivalent paths
compare equal"), `dir` (the directory containing a document) and `resolve` (a
reference resolved against a base directory). -/
structure PathOps where
  normalize : String → String
  dir : String → String
  resolve : String → String → String

mutual
/-- Modelled from the spec: the walk of the Reference Scanner (absent package
`filetree`) below the position `loc`: the references of a value with their
positions, in the order they appear in the document. -/
def scanAt (loc : List Nat) : Value → List (List Nat × String)
  | .scalar _ => []
  | .seq items => scanItems loc 0 items
  | .map entries => scanEntries loc 0 entries
  | .reference target => [(loc, target)]
/-- Modelled from the spec: `scanAt` along the items of a sequence, from item
number `i` on. -/
def scanItems (loc : List Nat) (i : Nat) : List Value → List (List Nat × String)
  | [] => []
  | v :: vs => scanAt (loc ++ [i]) v ++ scanItems loc (i + 1) vs
/-- Modelled from the spec: `scanAt` along the entries of a mapping, from entry
number `i` on. -/
def scanEntries (loc : List Nat) (i : Nat) : List (String × Value) → List (List Nat × String)
  | [] => []
  | (_, v) :: es => scanAt (loc ++ [i]) v ++ scanEntries loc (i + 1) es
end

/-- Modelled from the spec: the Reference Scanner (absent package `filetree`),
`scan(content, baseDir)`: the ordered sequence of (referenceKey, candidate child
path), each reference resolved against `baseDir`; empty for a leaf; it never
fails. -/
def scan (ops : PathOps) (content : Value) (baseDir : String) : List (List Nat × String) :=
  (scanAt [] content).map fun kr => (kr.1, ops.resolve baseDir kr.2)

/-- Modelled from the spec: the files of one run (absent package `filetree`
reads them from disk): each path with what reading and parsing it gives; a path
that is not listed does not exist. -/
abbrev FileSystem := List (String × File)

/-- Modelled from the spec: the parsed document at a path, when the file exists
and parses (loader of the absent package `filetree`). -/
def readDoc (fs : FileSystem) (path : String) : Option Value :=
  match fs.lookup path with
  | some (.document content) => some content
  | _ => none

/-- Modelled from the spec: the Tree Composer (absent package `filetree`)
composing "each referenced path in the order returned by the scanner" and
attaching "each resulting child node under its referenceKey"; the first failure
aborts the run. -/
def composeChildren (compose : String → Except ComposeError DocumentNode) :
    List (List Nat × String) → Except ComposeError (List (List Nat × DocumentNode))
  | [] => .ok []
  | (key, path) :: rest =>
    match compose path with
    | .error e => .error e
    | .ok child =>
      match composeChildren compose rest with
      | .error e => .error e
      | .ok children => .ok ((key, child) :: children)

/-- Modelled from the spec: the depth-first algorithm of the Tree Composer
(absent package `filetree`).  `visited` holds the normalized paths on the active
recursion stack, the root first; the first argument is how many more documents
the stack may take before the run fails with `DepthExceeded`.  On entering a
path: normalize it; if it is in `visited` fail with `CycleDetected` and the
chain; otherwise load and parse it, scan it, compose each reference with the
path added to `visited`.  The path is on the stack for its own references only
(post-order release). -/
def composeAux (ops : PathOps) (fs : FileSystem) :
    Nat → List String → String → Except ComposeError DocumentNode
  | 0, visited, path =>
    let n := ops.normalize path
    if n ∈ visited then .error (.CycleDetected (visited ++ [n]))
    else .error (.DepthExceeded n)
  | depth + 1, visited, path =>
    let n := ops.normalize path
    if n ∈ visited then .error (.CycleDetected (visited ++ [n]))
    else
      match fs.lookup n with
      | none => .error (.NotFound n)
      | some (.unparseable diagnostic) => .error (.ParseError n diagnostic)
      | some (.document content) =>
        match composeChildren (composeAux ops fs depth (visited ++ [n]))
            (scan ops content (ops.dir n)) with
        | .error e => .error e
        | .ok children => .ok (.mk n content children)

/-- Modelled from the spec: `compose(rootPath)` of the Tree Composer (absent
package `filetree`), the run starting with an empty `visited`.  `maxDepth` is
the configured maximum depth of section 5: the number of documents the
recursion stack may hold; a path entered beyond it fails with `DepthExceeded`. -/
def compose (maxDepth : Nat) (ops : PathOps) (fs : FileSystem) (rootPath : String) :
    Except ComposeError DocumentNode :=
  composeAux ops fs maxDepth [] rootPath

/-- Modelled from the spec: the child attached under a referenceKey, the first
in the order of attachment (absent package `filetree`). -/
def childAt {β : Type} (key : List Nat) : List (List Nat × β) → Option β
  | [] => none
  | (k, b) :: rest => if k = key then some b else childAt key rest

mutual
/-- Modelled from the spec: the single-pass walk of the Canonical Serializer
(absent package `filetree`) below the position `loc`: the value, "each reference
location rewritten to contain" what `inlined` holds for that location. -/
def rewrite (inlined : List (List Nat × Value)) (loc : List Nat) : Value → Value
  | .scalar s => .scalar s
  | .seq items => .seq (rewriteItems inlined loc 0 items)
  | .map entries => .map (rewriteEntries inlined loc 0 entries)
  | .reference target =>
    match childAt loc inlined with
    | some v => v
    | none => .reference target
/-- Modelled from the spec: `rewrite` along the items of a sequence, from item
number `i` on. -/
def rewriteItems (inlined : List (List Nat × Value)) (loc : List Nat) (i : Nat) :
    List Value → List Value
  | [] => []
  | v :: vs => rewrite inlined (loc ++ [i]) v :: rewriteItems inlined loc (i + 1) vs
/-- Modelled from the spec: `rewrite` along the entries of a mapping, from entry
number `i` on; keys and their order are kept. -/
def rewriteEntries (inlined : List (List Nat × Value)) (loc : List Nat) (i : Nat) :
    List (String × Value) → List (String × Value)
  | [] => []
  | (k, v) :: es => (k, rewrite inlined (loc ++ [i]) v) :: rewriteEntries inlined loc (i + 1) es
end

mutual
/-- Modelled from the spec: the merged structure the Canonical Serializer
(absent package `filetree`) encodes for a node: "the child's parsed structure
is spliced into the parent's structure at the reference key", children first. -/
def inline : DocumentNode → Value
  | .mk _ content children => rewrite (inlineChildren children) [] content
/-- Modelled from the spec: `inline` of each child, under its referenceKey. -/
def inlineChildren : List (List Nat × DocumentNode) → List (List Nat × Value)
  | [] => []
  | (key, child) :: rest => (key, inline child) :: inlineChildren rest
end

/-- Modelled from the spec: `serialize(DocumentNode) -> documentText` of the
Canonical Serializer (absent package `filetree`): the merged structure, encoded;
`encode` is the encoder of the document format. -/
def serialize (encode : Value → String) (node : DocumentNode) : String :=
  encode (inline node)

mutual
/-- Modelled from the spec: whether a value still holds a reference marker
(the "unresolved reference markers" of the testable properties). -/
def hasRef : Value → Bool
  | .scalar _ => false
  | .seq items => hasRefItems items
  | .map entries => hasRefEntries entries
  | .reference _ => true
/-- Modelled from the spec: `hasRef` of one of the items of a sequence. -/
def hasRefItems : List Value → Bool
  | [] => false
  | v :: vs => hasRef v || hasRefItems vs
/-- Modelled from the spec: `hasRef` of one of the values of a mapping. -/
def hasRefEntries : List (String × Value) → Bool
  | [] => false
  | (_, v) :: es => hasRef v || hasRefEntries es
end

/-- Modelled from the spec: the collaborators of `collapseConfig` when
`filetree.NewTree` is the Tree Composer and `yaml.Marshal` the Canonical
Serializer (both absent from the sources); `describe` gives a composition
failure its message. -/
def composerEnv {τ : Type} (env : Env τ) (describe : ComposeError → String)
    (encode : Value → String) (maxDepth : Nat) (ops : PathOps) (fs : FileSystem) :
    Env DocumentNode where
  ConfigQuery := env.ConfigQuery
  NewTree := fun root =>
    match compose maxDepth ops fs root with
    | .error e => .error (.mk (describe e))
    | .ok tree => .ok tree
  Marshal := fun tree => .ok (serialize encode tree)
  Exec := env.Exec

/-- Modelled from the spec: the normalized paths a document references, in the
order of its references (the edges of the reference graph the absent package
`filetree` walks); none for a path with no parsed document. -/
def childPaths (ops : PathOps) (fs : FileSystem) (path : String) : List String :=
  match readDoc fs path with
  | some content => (scan ops content (ops.dir path)).map fun kr => ops.normalize kr.2
  | none => []

/-- Modelled from the spec: "`p` references `q`", between normalized paths. -/
def References (ops : PathOps) (fs : FileSystem) (p q : String) : Prop :=
  q ∈ childPaths ops fs p

instance (ops : PathOps) (fs : FileSystem) (p q : String) : Decidable (References ops fs p q) :=
  inferInstanceAs (Decidable (q ∈ childPaths ops fs p))

/-- Modelled from the spec: the files are a set of documents closed under
reference: every file parses and every reference of every document names a
file of the set. -/
def closed (ops : PathOps) (fs : FileSystem) : Bool :=
  fs.all fun e =>
    match e.2 with
    | .document content =>
      (scan ops content (ops.dir e.1)).all fun kr => (readDoc fs (ops.normalize kr.2)).isSome
    | .unparseable _ => false

mutual
/-- Modelled from the spec: `Expands ops fs p v out`: `out` is the value `v` of
the document at `p` with every reference location holding the inlined structure
of the referenced child, and everything else as it is in `v`. -/
inductive Expands (ops : PathOps) (fs : FileSystem) : String → Value → Value → Prop where
  | scalar (p s : String) : Expands ops fs p (.scalar s) (.scalar s)
  | seq (p : String) (items out : List Value) :
    ExpandsItems ops fs p items out → Expands ops fs p (.seq items) (.seq out)
  | map (p : String) (entries out : List (String × Value)) :
    ExpandsEntries ops fs p entries out → Expands ops fs p (.map entries) (.map out)
  | reference (p target : String) (content out : Value) :
    readDoc fs (ops.normalize (ops.resolve (ops.dir p) target)) = some content →
    Expands ops fs (ops.normalize (ops.resolve (ops.dir p) target)) content out →
    Expands ops fs p (.reference target) out
/-- Modelled from the spec: `Expands`, item by item. -/
inductive ExpandsItems (ops : PathOps) (fs : FileSystem) :
    String → List Value → List Value → Prop where
  | nil (p : String) : ExpandsItems ops fs p [] []
  | cons (p : String) (v out : Value) (vs outs : List Value) :
    Expands ops fs p v out → ExpandsItems ops fs p vs outs →
    ExpandsItems ops fs p (v :: vs) (out :: outs)
/-- Modelled from the spec: `Expands`, entry by entry, keys and order kept. -/
inductive ExpandsEntries (ops : PathOps) (fs : FileSystem) :
    String → List (String × Value) → List (String × Value) → Prop where
  | nil (p : String) : ExpandsEntries ops fs p [] []
  | cons (p k : String) (v out : Value) (es outs : List (String × Value)) :
    Expands ops fs p v out → ExpandsEntries ops fs p es outs →
    ExpandsEntries ops fs p ((k, v) :: es) ((k, out) :: outs)
end

mutual
/-- Modelled from the spec: the value at a position of a document (what a
referenceKey identifies). -/
def getAt : Value → List Nat → Option Value
  | v, [] => some v
  | .seq items, i :: rest => getAtItems items i rest
  | .map entries, i :: rest => getAtEntries entries i rest
  | .scalar _, _ :: _ => none
  | .reference _, _ :: _ => none
/-- Modelled from the spec: `getAt` below item number `i` of a sequence. -/
def getAtItems : List Value → Nat → List Nat → Option Value
  | [], _, _ => none
  | v :: _, 0, rest => getAt v rest
  | _ :: vs, i + 1, rest => getAtItems vs i rest
/-- Modelled from the spec: `getAt` below entry number `i` of a mapping. -/
def getAtEntries : List (String × Value) → Nat → List Nat → Option Value
  | [], _, _ => none
  | (_, v) :: _, 0, rest => getAt v rest
  | _ :: es, i + 1, rest => getAtEntries es i rest
end

/-- Modelled from the spec: `ClosesCycle ops fs depth stack path chain`: the walk
that enters `path` with `stack` on the recursion stack and room for `depth` more
documents reaches a path that is on its stack before it meets any failure, and
`chain` is its stack then, followed by that path.  Either `path` itself is on
the stack; or `path` is a parsed document with room left for it, the references
that come before one of its references all compose without failure, and the
walk that enters that reference closes the cycle. -/
inductive ClosesCycle (ops : PathOps) (fs : FileSystem) :
    Nat → List String → String → List String → Prop where
  | onStack (depth : Nat) (stack : List String) (path : String) :
    ops.normalize path ∈ stack →
    ClosesCycle ops fs depth stack path (stack ++ [ops.normalize path])
  | through (depth : Nat) (stack : List String) (path : String) (content : Value)
      (before after : List (List Nat × String)) (key : List Nat) (target : String)
      (chain : List String) :
    ops.normalize path ∉ stack →
    fs.lookup (ops.normalize path) = some (.document content) →
    scan ops content (ops.dir (ops.normalize path)) = before ++ (key, target) :: after →
    (∀ kr ∈ before, ∃ child,
      composeAux ops fs depth (stack ++ [ops.normalize path]) kr.2 = .ok child) →
    ClosesCycle ops fs depth (stack ++ [ops.normalize path]) target chain →
    ClosesCycle ops fs (depth + 1) stack path chain

/-- Modelled from the spec: what `inlined` has to hold for a reference `r` of the
document at `p`, found at the position `k`: the inlined structure of the
referenced child, itself without reference markers. -/
def HoldsChild (ops : PathOps) (fs : FileSystem) (p : String)
    (inlined : List (List Nat × Value)) (k : List Nat) (r : String) : Prop :=
  ∃ out content, childAt k inlined = some out ∧ hasRef out = false ∧
    readDoc fs (ops.normalize (ops.resolve (ops.dir p) r)) = some content ∧
    Expands ops fs (ops.normalize (ops.resolve (ops.dir p) r)) content out

/-! ## Statements and sample inputs -/

/-- The Path Resolver in the words of the specification (section 4.1),
`resolve(defaultPath, overrideFlagValue, positionalArg)`: "(a) an explicit
positional argument if supplied, (b) an override value if non-empty, (c) a
fixed default path". -/
def resolve (defaultPath overrideFlagValue : String) (positionalArg : Option String) : String :=
  match positionalArg with
  | some a => a
  | none => if overrideFlagValue ≠ "" then overrideFlagValue else defaultPath

/-- The path `validateConfig` computes before it calls the remote query (lines
74 to 83 of `config.go`). -/
def effectivePath (configPath : String) (args : List String) : String :=
  let path := defaultConfigPath
  let path := if configPath ≠ "" then configPath else path
  match args with
  | [a] => a
  | _ => path

/-- What "surfaced verbatim" asks of the error `o` a command returns when the
remote query has given `r`: the query's error as it is; the `ToError()` of a
response that is not valid, whatever that method returns; `nil` for a valid
response; so `nil` exactly when the query has given no error and a response
that is valid or whose `ToError()` is `nil`. -/
def SurfacedVerbatim (r : Except GoError ConfigResponse) (o : Option GoError) : Prop :=
  (∀ err, r = .error err → o = some err) ∧
  (∀ response, r = .ok response → response.Valid = false → o = response.ToError) ∧
  (∀ response, r = .ok response → response.Valid = true → o = none) ∧
  (o = none ↔
    ∃ response, r = .ok response ∧ (response.Valid = true ∨ response.ToError = none))

/-- Sample collaborators.  The remote query fails for `down.yml`, rejects
`bad.yml` and accepts every other path, writing nothing to the sink; the tree
builder fails for `missing`; the marshaller fails for the tree of `odd`. -/
def sampleEnv : Env Bool where
  ConfigQuery := fun log path =>
    (log,
      if path = "down.yml" then .error (.mk "service unavailable")
      else if path = "bad.yml" then
        .ok { Valid := false, OutputYaml := "", ToError := some (.mk "jobs: required") }
      else .ok { Valid := true, OutputYaml := "version: 2", ToError := none })
  NewTree := fun root =>
    if root = "missing" then .error (.mk "no such file or directory")
    else .ok (decide (root ≠ "odd"))
  Marshal := fun tree => if tree then .ok "version: 2" else .error (.mk "cannot marshal")
  Exec := fun _ args => if args = [] then some (.mk "exit status 1") else none

/-- Sample collaborators whose remote query gives, for every path, a response
that is not valid and whose `ToError()` is `nil`. -/
def silentEnv : Env Bool where
  ConfigQuery := fun log _ => (log, .ok { Valid := false, OutputYaml := "", ToError := none })
  NewTree := fun _ => .ok true
  Marshal := fun _ => .ok "version: 2"
  Exec := fun _ _ => none

/-- A sample world: nothing written, no call made. -/
def emptyWorld : World := { log := [], calls := [] }

/-- Sample path arithmetic: every document in one directory, each path its own
normal form. -/
def flat : PathOps where
  normalize := fun p => p
  dir := fun _ => ""
  resolve := fun _ r => r

/-- Sample message of a composition failure. -/
def describeError : ComposeError → String
  | .NotFound path => "not found: " ++ path
  | .ParseError path diagnostic => "cannot parse " ++ path ++ ": " ++ diagnostic
  | .CycleDetected chain => "cycle: " ++ " -> ".intercalate chain
  | .DepthExceeded path => "too deep at " ++ path

mutual
/-- Sample encoder: a value in flow style. -/
def encodeFlow : Value → String
  | .scalar s => s
  | .seq items => "[" ++ encodeItems items ++ "]"
  | .map entries => "\x7b" ++ encodeEntries entries ++ "\x7d"
  | .reference target => "\x7binclude: " ++ target ++ "\x7d"
/-- Sample encoder: the items of a sequence. -/
def encodeItems : List Value → String
  | [] => ""
  | [v] => encodeFlow v
  | v :: vs => encodeFlow v ++ ", " ++ encodeItems vs
/-- Sample encoder: the entries of a mapping. -/
def encodeEntries : List (String × Value) → String
  | [] => ""
  | [(k, v)] => k ++ ": " ++ encodeFlow v
  | (k, v) :: es => k ++ ": " ++ encodeFlow v ++ ", " ++ encodeEntries es
end

/-- The specification's example of a cycle: `a.yml` references `b.yml`, which
references `a.yml`. -/
def cycleFs : FileSystem :=
  [("a.yml", .document (.seq [.reference "b.yml"])),
   ("b.yml", .document (.seq [.reference "a.yml"]))]

/-- A root that references a file that does not exist, then itself. -/
def danglingFs : FileSystem :=
  [("a.yml", .document (.seq [.reference "missing.yml", .reference "a.yml"]))]

/-! ## Lemmas on the composer -/

theorem lookup_mem {β : Type} (fs : List (String × β)) (k : String) (b : β)
    (h : fs.lookup k = some b) : (k, b) ∈ fs := by
  induction fs with
  | nil => simp at h
  | cons e rest ih =>
    obtain ⟨k', b'⟩ := e
    rw [List.lookup_cons] at h
    by_cases hk : k = k'
    · subst hk
      simp at h
      subst h
      simp
    · have : (k == k') = false := by simpa using hk
      rw [this] at h
      exact List.mem_cons_of_mem _ (ih h)

theorem composeChildren_ok (compose : String → Except ComposeError DocumentNode) :
    ∀ (refs : List (List Nat × String)) (children : List (List Nat × DocumentNode)),
      composeChildren compose refs = .ok children →
      List.Forall₂ (fun kr kc => kr.1 = kc.1 ∧ compose kr.2 = .ok kc.2) refs children := by
  intro refs
  induction refs with
  | nil =>
    intro children h
    simp only [composeChildren, Except.ok.injEq] at h
    subst h
    exact List.Forall₂.nil
  | cons kr rest ih =>
    intro children h
    obtain ⟨key, path⟩ := kr
    simp only [composeChildren] at h
    cases hc : compose path with
    | error e => rw [hc] at h; simp at h
    | ok child =>
      rw [hc] at h
      cases hr : composeChildren compose rest with
      | error e => rw [hr] at h; simp at h
      | ok cs =>
        rw [hr] at h
        simp only [Except.ok.injEq] at h
        subst h
        exact List.Forall₂.cons ⟨rfl, hc⟩ (ih cs hr)

theorem composeChildren_ok_mem (compose : String → Except ComposeError DocumentNode)
    (refs : List (List Nat × String)) (children : List (List Nat × DocumentNode))
    (h : composeChildren compose refs = .ok children) :
    ∀ kr ∈ refs, ∃ child, compose kr.2 = .ok child := by
  have h2 := composeChildren_ok compose refs children h
  clear h
  induction h2 with
  | nil => intro kr hkr; simp at hkr
  | cons hab _ ih =>
    intro kr hkr
    rcases List.mem_cons.1 hkr with rfl | hmem
    · exact ⟨_, hab.2⟩
    · exact ih kr hmem

theorem composeChildren_error (compose : String → Except ComposeError DocumentNode) :
    ∀ (refs : List (List Nat × String)) (e : ComposeError),
      composeChildren compose refs = .error e → ∃ kr ∈ refs, compose kr.2 = .error e := by
  intro refs
  induction refs with
  | nil => intro e h; simp [composeChildren] at h
  | cons kr rest ih =>
    intro e h
    obtain ⟨key, path⟩ := kr
    simp only [composeChildren] at h
    cases hc : compose path with
    | error e' =>
      rw [hc] at h
      simp only [Except.error.injEq] at h
      subst h
      exact ⟨(key, path), List.mem_cons_self _ _, hc⟩
    | ok child =>
      rw [hc] at h
      cases hr : composeChildren compose rest with
      | error e' =>
        rw [hr] at h
        simp only [Except.error.injEq] at h
        subst h
        obtain ⟨kr, hkr, hk⟩ := ih e' hr
        exact ⟨kr, List.mem_cons_of_mem _ hkr, hk⟩
      | ok cs => rw [hr] at h; simp at h

theorem readDoc_of_lookup (fs : FileSystem) (n : String) (content : Value)
    (h : fs.lookup n = some (.document content)) : readDoc fs n = some content := by
  simp [readDoc, h]

theorem lookup_of_readDoc (fs : FileSystem) (n : String) (content : Value)
    (h : readDoc fs n = some content) : fs.lookup n = some (.document content) := by
  unfold readDoc at h
  split at h
  · rename_i c hc
    simp only [Option.some.injEq] at h
    subst h
    exact hc
  · simp at h

theorem closed_children (ops : PathOps) (fs : FileSystem) (hclosed : closed ops fs = true)
    (n : String) (content : Value) (h : fs.lookup n = some (.document content)) :
    ∀ kr ∈ scan ops content (ops.dir n), ∃ c, fs.lookup (ops.normalize kr.2) = some (.document c) := by
  intro kr hkr
  have hmem := lookup_mem fs n _ h
  unfold closed at hclosed
  rw [List.all_eq_true] at hclosed
  have h1 := hclosed _ hmem
  simp only [List.all_eq_true] at h1
  have h2 := h1 kr hkr
  rw [Option.isSome_iff_exists] at h2
  obtain ⟨c, hc⟩ := h2
  exact ⟨c, lookup_of_readDoc fs _ c hc⟩

theorem references_of_scan (ops : PathOps) (fs : FileSystem) (n : String) (content : Value)
    (h : fs.lookup n = some (.document content)) (kr : List Nat × String)
    (hkr : kr ∈ scan ops content (ops.dir n)) :
    References ops fs n (ops.normalize kr.2) := by
  unfold References childPaths
  rw [readDoc_of_lookup fs n content h]
  exact List.mem_map.2 ⟨kr, hkr, rfl⟩

theorem scan_of_references (ops : PathOps) (fs : FileSystem) (n q : String)
    (h : References ops fs n q) :
    ∃ content kr, fs.lookup n = some (.document content) ∧ kr ∈ scan ops content (ops.dir n) ∧
      q = ops.normalize kr.2 := by
  unfold References childPaths at h
  cases hr : readDoc fs n with
  | none => rw [hr] at h; simp at h
  | some content =>
    rw [hr] at h
    obtain ⟨kr, hkr, hq⟩ := List.mem_map.1 h
    exact ⟨content, kr, lookup_of_readDoc fs n content hr, hkr, hq.symm⟩

/-- The equation of `composeAux` at a path that is not on the stack and holds a
parsed document. -/
theorem composeAux_succ (ops : PathOps) (fs : FileSystem) (depth : Nat) (visited : List String)
    (path : String) (content : Value) (hv : ops.normalize path ∉ visited)
    (h : fs.lookup (ops.normalize path) = some (.document content)) :
    composeAux ops fs (depth + 1) visited path =
      match composeChildren (composeAux ops fs depth (visited ++ [ops.normalize path]))
          (scan ops content (ops.dir (ops.normalize path))) with
      | .error e => .error e
      | .ok children => .ok (.mk (ops.normalize path) content children) := by
  simp only [composeAux, hv, if_false, h]

/-- A composition that succeeds has met none of the paths on its stack: nothing
that the entered path reaches by references is in `visited`. -/
theorem composeAux_ok_unreached (ops : PathOps) (fs : FileSystem) :
    ∀ (depth : Nat) (visited : List String) (path : String) (tree : DocumentNode),
      composeAux ops fs depth visited path = .ok tree →
      ∀ q, Relation.ReflTransGen (References ops fs) (ops.normalize path) q → q ∉ visited := by
  intro depth
  induction depth with
  | zero =>
    intro visited path tree h
    simp only [composeAux] at h
    split at h <;> simp at h
  | succ d ih =>
    intro visited path tree h q hq
    by_cases hv : ops.normalize path ∈ visited
    · simp [composeAux, hv] at h
    · rcases Relation.ReflTransGen.cases_head hq with rfl | ⟨c, hc, hcq⟩
      · exact hv
      · obtain ⟨content, kr, hl, hkr, rfl⟩ := scan_of_references ops fs _ _ hc
        rw [composeAux_succ ops fs d visited path content hv hl] at h
        cases hch : composeChildren (composeAux ops fs d (visited ++ [ops.normalize path]))
            (scan ops content (ops.dir (ops.normalize path))) with
        | error e => rw [hch] at h; simp at h
        | ok children =>
          obtain ⟨child, hchild⟩ := composeChildren_ok_mem _ _ _ hch kr hkr
          have := ih _ _ _ hchild q hcq
          intro hqv
          exact this (List.mem_append_left _ hqv)

/-- A root that references itself, directly or through a chain, is never
composed. -/
theorem compose_cycle_fails (ops : PathOps) (fs : FileSystem) (maxDepth : Nat) (rootPath : String)
    (hcycle : Relation.TransGen (References ops fs) (ops.normalize rootPath)
      (ops.normalize rootPath)) :
    ∃ e, compose maxDepth ops fs rootPath = .error e := by
  cases h : compose maxDepth ops fs rootPath with
  | error e => exact ⟨e, rfl⟩
  | ok tree =>
    exfalso
    unfold compose at h
    cases maxDepth with
    | zero =>
      simp only [composeAux] at h
      split at h <;> simp at h
    | succ d =>
      obtain ⟨c, hc, hcq⟩ := Relation.TransGen.head'_iff.1 hcycle
      obtain ⟨content, kr, hl, hkr, rfl⟩ := scan_of_references ops fs _ _ hc
      rw [composeAux_succ ops fs d [] rootPath content (by simp) hl] at h
      cases hch : composeChildren (composeAux ops fs d ([] ++ [ops.normalize rootPath]))
          (scan ops content (ops.dir (ops.normalize rootPath))) with
      | error e => rw [hch] at h; simp at h
      | ok children =>
        obtain ⟨child, hchild⟩ := composeChildren_ok_mem _ _ _ hch kr hkr
        have := composeAux_ok_unreached ops fs _ _ _ _ hchild _ hcq
        simp at this

/-- The failure of a list of references is that of its first reference that
fails: the references before it compose. -/
theorem composeChildren_error_split (compose : String → Except ComposeError DocumentNode) :
    ∀ (refs : List (List Nat × String)) (e : ComposeError),
      composeChildren compose refs = .error e →
      ∃ before kr after, refs = before ++ kr :: after ∧
        (∀ x ∈ before, ∃ child, compose x.2 = .ok child) ∧ compose kr.2 = .error e := by
  intro refs
  induction refs with
  | nil => intro e h; simp [composeChildren] at h
  | cons kr rest ih =>
    intro e h
    obtain ⟨key, path⟩ := kr
    simp only [composeChildren] at h
    cases hc : compose path with
    | error e' =>
      rw [hc] at h
      simp only [Except.error.injEq] at h
      subst h
      exact ⟨[], (key, path), rest, rfl, by simp, hc⟩
    | ok child =>
      rw [hc] at h
      cases hr : composeChildren compose rest with
      | error e' =>
        rw [hr] at h
        simp only [Except.error.injEq] at h
        subst h
        obtain ⟨before, kr, after, hrest, hbefore, hk⟩ := ih e' hr
        refine ⟨(key, path) :: before, kr, after, by rw [hrest]; rfl, ?_, hk⟩
        intro x hx
        rcases List.mem_cons.1 hx with rfl | hx
        · exact ⟨child, hc⟩
        · exact hbefore x hx
      | ok cs => rw [hr] at h; simp at h

/-- A list of references whose first references compose and whose next one
fails, fails with that failure. -/
theorem composeChildren_error_of_split (compose : String → Except ComposeError DocumentNode)
    (kr : List Nat × String) (after : List (List Nat × String)) (e : ComposeError)
    (hk : compose kr.2 = .error e) :
    ∀ before : List (List Nat × String), (∀ x ∈ before, ∃ child, compose x.2 = .ok child) →
      composeChildren compose (before ++ kr :: after) = .error e := by
  intro before
  induction before with
  | nil =>
    intro _
    obtain ⟨key, path⟩ := kr
    simp only [List.nil_append, composeChildren]
    simp only at hk
    rw [hk]
  | cons x rest ih =>
    intro h
    obtain ⟨key, path⟩ := x
    obtain ⟨child, hchild⟩ := h (key, path) (List.mem_cons_self _ _)
    simp only at hchild
    have hrest := ih (fun y hy => h y (List.mem_cons_of_mem _ hy))
    show composeChildren compose ((key, path) :: (rest ++ kr :: after)) = .error e
    simp only [composeChildren, hchild, hrest]

/-- A failure of the walk tells the truth.  It comes with the stack of the walk
when it failed and the path `q` it was entering: the stack extends the one the
walk started with, holds no path twice and goes, with `q`, by references; and
the failure is `CycleDetected` with that chain, `q` being on the stack, or
`NotFound` for `q`, which is no file, or `ParseError` for `q`, which does not
parse, or `DepthExceeded` for `q`, the stack being full. -/
theorem composeAux_error_sound (ops : PathOps) (fs : FileSystem) :
    ∀ (depth : Nat) (visited : List String) (path : String) (e : ComposeError),
      visited.Nodup →
      List.Chain' (References ops fs) (visited ++ [ops.normalize path]) →
      composeAux ops fs depth visited path = .error e →
      ∃ stack q, (visited ++ [ops.normalize path]) <+: (stack ++ [q]) ∧ stack.Nodup ∧
        List.Chain' (References ops fs) (stack ++ [q]) ∧
        ((e = .CycleDetected (stack ++ [q]) ∧ q ∈ stack) ∨
          (e = .NotFound q ∧ fs.lookup q = none) ∨
          (∃ d, e = .ParseError q d ∧ fs.lookup q = some (.unparseable d)) ∨
          (e = .DepthExceeded q ∧ q ∉ stack ∧ stack.length = visited.length + depth)) := by
  intro depth
  induction depth with
  | zero =>
    intro visited path e hnodup hchain h
    by_cases hv : ops.normalize path ∈ visited
    · simp only [composeAux, hv, if_true, Except.error.injEq] at h
      subst h
      exact ⟨visited, _, List.prefix_refl _, hnodup, hchain, Or.inl ⟨rfl, hv⟩⟩
    · simp only [composeAux, hv, if_false, Except.error.injEq] at h
      subst h
      exact ⟨visited, _, List.prefix_refl _, hnodup, hchain,
        Or.inr (Or.inr (Or.inr ⟨rfl, hv, rfl⟩))⟩
  | succ d ih =>
    intro visited path e hnodup hchain h
    by_cases hv : ops.normalize path ∈ visited
    · simp only [composeAux, hv, if_true, Except.error.injEq] at h
      subst h
      exact ⟨visited, _, List.prefix_refl _, hnodup, hchain, Or.inl ⟨rfl, hv⟩⟩
    · cases hl : fs.lookup (ops.normalize path) with
      | none =>
        simp only [composeAux, hv, if_false, hl, Except.error.injEq] at h
        subst h
        exact ⟨visited, _, List.prefix_refl _, hnodup, hchain, Or.inr (Or.inl ⟨rfl, hl⟩)⟩
      | some f =>
        cases f with
        | unparseable diagnostic =>
          simp only [composeAux, hv, if_false, hl, Except.error.injEq] at h
          subst h
          exact ⟨visited, _, List.prefix_refl _, hnodup, hchain,
            Or.inr (Or.inr (Or.inl ⟨diagnostic, rfl, hl⟩))⟩
        | document content =>
          rw [composeAux_succ ops fs d visited path content hv hl] at h
          cases hch : composeChildren (composeAux ops fs d (visited ++ [ops.normalize path]))
              (scan ops content (ops.dir (ops.normalize path))) with
          | ok children => rw [hch] at h; simp at h
          | error e' =>
            rw [hch] at h
            simp only [Except.error.injEq] at h
            subst h
            obtain ⟨kr, hkr, hk⟩ := composeChildren_error _ _ _ hch
            have hnodup' : (visited ++ [ops.normalize path]).Nodup := by
              rw [List.nodup_append]
              refine ⟨hnodup, List.nodup_singleton _, ?_⟩
              intro x hx hx'
              rw [List.mem_singleton] at hx'
              subst hx'
              exact hv hx
            have href := references_of_scan ops fs _ content hl kr hkr
            have hchain' : List.Chain' (References ops fs)
                ((visited ++ [ops.normalize path]) ++ [ops.normalize kr.2]) := by
              refine List.Chain'.append hchain (List.chain'_singleton _) ?_
              intro x hx y hy
              rw [List.getLast?_concat, Option.mem_def, Option.some.injEq] at hx
              simp only [List.head?_cons, Option.mem_def, Option.some.injEq] at hy
              subst hx hy
              exact href
            obtain ⟨stack, q, hpre, hsn, hsc, hkind⟩ := ih _ _ _ hnodup' hchain' hk
            refine ⟨stack, q, (List.prefix_append _ _).trans hpre, hsn, hsc, ?_⟩
            rcases hkind with h1 | h2 | h3 | ⟨h4, h5, h6⟩
            · exact Or.inl h1
            · exact Or.inr (Or.inl h2)
            · exact Or.inr (Or.inr (Or.inl h3))
            · refine Or.inr (Or.inr (Or.inr ⟨h4, h5, ?_⟩))
              rw [h6]
              simp only [List.length_append, List.length_singleton]
              omega

/-- The walk fails with `CycleDetected` and a chain exactly when it closes a
cycle with that chain before any other failure. -/
theorem composeAux_cycle_iff (ops : PathOps) (fs : FileSystem) :
    ∀ (depth : Nat) (visited : List String) (path : String) (chain : List String),
      composeAux ops fs depth visited path = .error (.CycleDetected chain) ↔
        ClosesCycle ops fs depth visited path chain := by
  intro depth visited path chain
  constructor
  · induction depth generalizing visited path with
    | zero =>
      intro h
      by_cases hv : ops.normalize path ∈ visited
      · simp only [composeAux, hv, if_true, Except.error.injEq,
          ComposeError.CycleDetected.injEq] at h
        subst h
        exact ClosesCycle.onStack 0 visited path hv
      · simp [composeAux, hv] at h
    | succ d ih =>
      intro h
      by_cases hv : ops.normalize path ∈ visited
      · simp only [composeAux, hv, if_true, Except.error.injEq,
          ComposeError.CycleDetected.injEq] at h
        subst h
        exact ClosesCycle.onStack (d + 1) visited path hv
      · cases hl : fs.lookup (ops.normalize path) with
        | none => simp [composeAux, hv, hl] at h
        | some f =>
          cases f with
          | unparseable diagnostic => simp [composeAux, hv, hl] at h
          | document content =>
            rw [composeAux_succ ops fs d visited path content hv hl] at h
            cases hch : composeChildren (composeAux ops fs d (visited ++ [ops.normalize path]))
                (scan ops content (ops.dir (ops.normalize path))) with
            | ok children => rw [hch] at h; simp at h
            | error e' =>
              rw [hch] at h
              simp only [Except.error.injEq] at h
              subst h
              obtain ⟨before, ⟨key, target⟩, after, hsplit, hbefore, hk⟩ :=
                composeChildren_error_split _ _ _ hch
              exact ClosesCycle.through d visited path content before after key target chain
                hv hl hsplit hbefore (ih _ _ hk)
  · intro h
    induction h with
    | onStack depth stack path hmem =>
      cases depth <;> simp [composeAux, hmem]
    | through depth stack path content before after key target chain hv hl hsplit hbefore _ ih =>
      rw [composeAux_succ ops fs depth stack path content hv hl, hsplit,
        composeChildren_error_of_split _ (key, target) after _ ih before hbefore]

/-- The last path of a chain of references is reached from its first. -/
theorem reach_of_chain (ops : PathOps) (fs : FileSystem) :
    ∀ (l : List String) (a q : String), List.Chain' (References ops fs) (l ++ [q]) →
      (l ++ [q]).head? = some a → Relation.ReflTransGen (References ops fs) a q := by
  intro l
  induction l with
  | nil =>
    intro a q _ hhead
    simp only [List.nil_append, List.head?_cons, Option.some.injEq] at hhead
    subst hhead
    exact Relation.ReflTransGen.refl
  | cons b rest ih =>
    intro a q hchain hhead
    simp only [List.cons_append, List.head?_cons, Option.some.injEq] at hhead
    subst hhead
    cases rest with
    | nil =>
      simp only [List.cons_append, List.nil_append, List.chain'_cons] at hchain
      exact Relation.ReflTransGen.single hchain.1
    | cons c rest' =>
      simp only [List.cons_append, List.chain'_cons] at hchain
      exact Relation.ReflTransGen.head hchain.1 (ih c q (by simpa using hchain.2) (by simp))

mutual
/-- A reference the scanner reports sits at the position it reports. -/
theorem scanAt_getAt (loc : List Nat) (k : List Nat) (r : String) :
    ∀ v, (k, r) ∈ scanAt loc v → ∃ s, k = loc ++ s ∧ getAt v s = some (.reference r)
  | .scalar _, h => by simp [scanAt] at h
  | .seq items, h => by
    simp only [scanAt] at h
    obtain ⟨j, s, hk, hg⟩ := scanItems_getAt loc 0 k r items h
    refine ⟨(0 + j) :: s, hk, ?_⟩
    simpa [getAt] using hg
  | .map entries, h => by
    simp only [scanAt] at h
    obtain ⟨j, s, hk, hg⟩ := scanEntries_getAt loc 0 k r entries h
    refine ⟨(0 + j) :: s, hk, ?_⟩
    simpa [getAt] using hg
  | .reference target, h => by
    simp only [scanAt, List.mem_singleton, Prod.mk.injEq] at h
    obtain ⟨rfl, rfl⟩ := h
    exact ⟨[], by simp, by simp [getAt]⟩
/-- The same along the items of a sequence. -/
theorem scanItems_getAt (loc : List Nat) (i : Nat) (k : List Nat) (r : String) :
    ∀ vs, (k, r) ∈ scanItems loc i vs →
      ∃ j s, k = loc ++ (i + j) :: s ∧ getAtItems vs j s = some (.reference r)
  | [], h => by simp [scanItems] at h
  | v :: vs, h => by
    simp only [scanItems, List.mem_append] at h
    rcases h with h | h
    · obtain ⟨s, hk, hg⟩ := scanAt_getAt (loc ++ [i]) k r v h
      refine ⟨0, s, ?_, ?_⟩
      · simpa using hk
      · simpa [getAtItems] using hg
    · obtain ⟨j, s, hk, hg⟩ := scanItems_getAt loc (i + 1) k r vs h
      refine ⟨j + 1, s, ?_, ?_⟩
      · rw [hk]
        congr 2
        omega
      · simpa [getAtItems] using hg
/-- The same along the entries of a mapping. -/
theorem scanEntries_getAt (loc : List Nat) (i : Nat) (k : List Nat) (r : String) :
    ∀ es, (k, r) ∈ scanEntries loc i es →
      ∃ j s, k = loc ++ (i + j) :: s ∧ getAtEntries es j s = some (.reference r)
  | [], h => by simp [scanEntries] at h
  | (_, v) :: es, h => by
    simp only [scanEntries, List.mem_append] at h
    rcases h with h | h
    · obtain ⟨s, hk, hg⟩ := scanAt_getAt (loc ++ [i]) k r v h
      refine ⟨0, s, ?_, ?_⟩
      · simpa using hk
      · simpa [getAtEntries] using hg
    · obtain ⟨j, s, hk, hg⟩ := scanEntries_getAt loc (i + 1) k r es h
      refine ⟨j + 1, s, ?_, ?_⟩
      · rw [hk]
        congr 2
        omega
      · simpa [getAtEntries] using hg
end

mutual
/-- The walk of the serializer puts the inlined child at every reference and
leaves the rest as it is. -/
theorem rewrite_expands (ops : PathOps) (fs : FileSystem) (p : String)
    (inlined : List (List Nat × Value)) (loc : List Nat) :
    ∀ v, (∀ k r, (k, r) ∈ scanAt loc v → HoldsChild ops fs p inlined k r) →
      Expands ops fs p v (rewrite inlined loc v) ∧ hasRef (rewrite inlined loc v) = false
  | .scalar s, _ => by
    simp only [rewrite, hasRef, and_true]
    exact Expands.scalar p s
  | .seq items, h => by
    have := rewriteItems_expands ops fs p inlined loc 0 items
      (fun k r hkr => h k r (by simpa [scanAt] using hkr))
    simp only [rewrite, hasRef]
    exact ⟨Expands.seq p _ _ this.1, this.2⟩
  | .map entries, h => by
    have := rewriteEntries_expands ops fs p inlined loc 0 entries
      (fun k r hkr => h k r (by simpa [scanAt] using hkr))
    simp only [rewrite, hasRef]
    exact ⟨Expands.map p _ _ this.1, this.2⟩
  | .reference target, h => by
    obtain ⟨out, content, hout, hno, hread, hexp⟩ := h loc target (by simp [scanAt])
    simp only [rewrite, hout]
    exact ⟨Expands.reference p target content out hread hexp, hno⟩
/-- The same along the items of a sequence. -/
theorem rewriteItems_expands (ops : PathOps) (fs : FileSystem) (p : String)
    (inlined : List (List Nat × Value)) (loc : List Nat) (i : Nat) :
    ∀ vs, (∀ k r, (k, r) ∈ scanItems loc i vs → HoldsChild ops fs p inlined k r) →
      ExpandsItems ops fs p vs (rewriteItems inlined loc i vs) ∧
        hasRefItems (rewriteItems inlined loc i vs) = false
  | [], _ => by
    simp only [rewriteItems, hasRefItems, and_true]
    exact ExpandsItems.nil p
  | v :: vs, h => by
    have h1 := rewrite_expands ops fs p inlined (loc ++ [i]) v
      (fun k r hkr => h k r (by simp only [scanItems, List.mem_append]; exact Or.inl hkr))
    have h2 := rewriteItems_expands ops fs p inlined loc (i + 1) vs
      (fun k r hkr => h k r (by simp only [scanItems, List.mem_append]; exact Or.inr hkr))
    simp only [rewriteItems, hasRefItems, h1.2, h2.2, Bool.or_self, and_true]
    exact ExpandsItems.cons p _ _ _ _ h1.1 h2.1
/-- The same along the entries of a mapping. -/
theorem rewriteEntries_expands (ops : PathOps) (fs : FileSystem) (p : String)
    (inlined : List (List Nat × Value)) (loc : List Nat) (i : Nat) :
    ∀ es, (∀ k r, (k, r) ∈ scanEntries loc i es → HoldsChild ops fs p inlined k r) →
      ExpandsEntries ops fs p es (rewriteEntries inlined loc i es) ∧
        hasRefEntries (rewriteEntries inlined loc i es) = false
  | [], _ => by
    simp only [rewriteEntries, hasRefEntries, and_true]
    exact ExpandsEntries.nil p
  | (key, v) :: es, h => by
    have h1 := rewrite_expands ops fs p inlined (loc ++ [i]) v
      (fun k r hkr => h k r (by simp only [scanEntries, List.mem_append]; exact Or.inl hkr))
    have h2 := rewriteEntries_expands ops fs p inlined loc (i + 1) es
      (fun k r hkr => h k r (by simp only [scanEntries, List.mem_append]; exact Or.inr hkr))
    simp only [rewriteEntries, hasRefEntries, h1.2, h2.2, Bool.or_self, and_true]
    exact ExpandsEntries.cons p key _ _ _ _ h1.1 h2.1
end

/-- C1. Path precedence in `validateConfig`.  For every override value and every
argument list with at most one element, the one remote query made is for the
path the specification's resolver gives: the positional argument when there is
one, whatever the override is; otherwise the override when it is not empty;
otherwise `.circleci/config.yml`; so always one of the three inputs. -/
theorem validateConfig_path_precedence {τ : Type} (env : Env τ) (configPath : String)
    (args : List String) (w : World) (hargs : MaximumNArgs1 args) :
    (validateConfig env configPath args w).2.calls =
        w.calls ++ [Call.ConfigQuery (resolve defaultConfigPath configPath args.head?)] ∧
      (∀ a, args = [a] → resolve defaultConfigPath configPath args.head? = a) ∧
      (args = [] → configPath ≠ "" →
        resolve defaultConfigPath configPath args.head? = configPath) ∧
      (args = [] → configPath = "" →
        resolve defaultConfigPath configPath args.head? = ".circleci/config.yml") ∧
      (args = [resolve defaultConfigPath configPath args.head?] ∨
        resolve defaultConfigPath configPath args.head? = configPath ∨
        resolve defaultConfigPath configPath args.head? = ".circleci/config.yml") := by
  unfold MaximumNArgs1 at hargs
  match args, hargs with
  | [], _ =>
    refine ⟨?_, ?_, ?_, ?_, ?_⟩
    · simp only [validateConfig, resolve, List.head?_nil]
      split <;> (try split) <;> rfl
    · intro a h; simp at h
    · intro _ h; simp [resolve, h]
    · intro _ h; simp [resolve, h, defaultConfigPath]
    · by_cases h : configPath = "" <;> simp [resolve, h, defaultConfigPath]
  | [a], _ =>
    refine ⟨?_, ?_, ?_, ?_, ?_⟩
    · simp only [validateConfig, resolve, List.head?_cons]
      split <;> (try split) <;> rfl
    · intro b h; simp only [List.cons.injEq, and_true] at h; simp [resolve, h]
    · intro h; simp at h
    · intro h; simp at h
    · simp [resolve]
  | _ :: _ :: _, h => simp at h

/-- Witness of C1: `validate other.yml` with the override `legacy.yml` queries
`other.yml`. -/
theorem validateConfig_path_precedence_witness :
    MaximumNArgs1 ["other.yml"] ∧
      (validateConfig sampleEnv "legacy.yml" ["other.yml"] emptyWorld).2.calls =
        [Call.ConfigQuery "other.yml"] :=
  ⟨by decide,
    (validateConfig_path_precedence sampleEnv "legacy.yml" ["other.yml"] emptyWorld
      (by decide)).1⟩

/-- C2, at the failing input.  `collapse` with no `PATH` passes
`cobra.MaximumNArgs(1)`, and `collapseConfig` then indexes `args[0]` of the
empty slice: it panics, without a call to the tree builder. -/
theorem collapseConfig_no_path_panics {τ : Type} (env : Env τ) (w : World) :
    MaximumNArgs1 [] ∧ collapseConfig env [] w = none :=
  ⟨by decide, rfl⟩

/-- C3, counterexample.  With no positional argument `validateConfig` queries the
override, or the default when the override is empty, while `collapseConfig`
hands no path to the tree builder: it panics. -/
theorem collapseConfig_precedence_counterexample :
    MaximumNArgs1 [] ∧
      collapseConfig sampleEnv [] emptyWorld = none ∧
      (validateConfig sampleEnv "" [] emptyWorld).2.calls =
        [Call.ConfigQuery ".circleci/config.yml"] ∧
      (validateConfig sampleEnv "legacy.yml" [] emptyWorld).2.calls =
        [Call.ConfigQuery "legacy.yml"] := by
  decide

/-- C3, amended.  With one positional argument, whatever the override is,
`collapseConfig` hands that argument, and nothing else, to `filetree.NewTree`,
as `validateConfig` hands it to the remote query. -/
theorem collapseConfig_path_is_argument {τ : Type} (env : Env τ) (configPath a : String)
    (w : World) :
    (∃ o w', collapseConfig env [a] w = some (o, w') ∧
      (w'.calls = w.calls ++ [Call.NewTree a] ∨
        w'.calls = w.calls ++ [Call.NewTree a, Call.Marshal])) ∧
      (validateConfig env configPath [a] w).2.calls = w.calls ++ [Call.ConfigQuery a] := by
  constructor
  · cases ht : env.NewTree a with
    | error e =>
      simp only [collapseConfig, ht]
      exact ⟨_, _, rfl, Or.inl rfl⟩
    | ok tree =>
      cases hm : env.Marshal tree with
      | error e =>
        simp only [collapseConfig, ht, hm]
        exact ⟨_, _, rfl, Or.inr (by simp)⟩
      | ok y =>
        simp only [collapseConfig, ht, hm]
        exact ⟨_, _, rfl, Or.inr (by simp)⟩
  · simp only [validateConfig]
    split <;> (try split) <;> rfl

/-- C4. No partial output on a failed collapse.  For one positional argument:
when the tree builder fails, `collapseConfig` returns its error wrapped with
"An error occurred trying to build the tree" and leaves the sink as it was; when
the marshaller fails, the same with "Failed trying to marshal the tree to YAML ";
when both succeed it returns `nil` and writes the document, followed by a line
feed; and whenever the sink has changed, both have succeeded. -/
theorem collapseConfig_no_partial_output {τ : Type} (env : Env τ) (a : String) (w : World) :
    (∀ e, env.NewTree a = .error e →
      ∃ err w', collapseConfig env [a] w = some (some err, w') ∧ w'.log = w.log ∧
        err = .withMessage e "An error occurred trying to build the tree" ∧
        err.Error = "An error occurred trying to build the tree" ++ ": " ++ e.Error ∧
        err.Cause = e.Cause) ∧
      (∀ tree e, env.NewTree a = .ok tree → env.Marshal tree = .error e →
        ∃ err w', collapseConfig env [a] w = some (some err, w') ∧ w'.log = w.log ∧
          err = .withMessage e "Failed trying to marshal the tree to YAML " ∧
          err.Error = "Failed trying to marshal the tree to YAML " ++ ": " ++ e.Error ∧
          err.Cause = e.Cause) ∧
      (∀ tree y, env.NewTree a = .ok tree → env.Marshal tree = .ok y →
        ∃ w', collapseConfig env [a] w = some (none, w') ∧ w'.log = w.log ++ [y ++ "\n"]) ∧
      (∀ o w', collapseConfig env [a] w = some (o, w') → w'.log ≠ w.log →
        o = none ∧ ∃ tree y, env.NewTree a = .ok tree ∧ env.Marshal tree = .ok y) := by
  refine ⟨?_, ?_, ?_, ?_⟩
  · intro e h
    simp only [collapseConfig, h, errorsWrap]
    exact ⟨_, _, rfl, rfl, rfl, rfl, rfl⟩
  · intro tree e h h'
    simp only [collapseConfig, h, h', errorsWrap]
    exact ⟨_, _, rfl, rfl, rfl, rfl, rfl⟩
  · intro tree y h h'
    simp only [collapseConfig, h, h']
    exact ⟨_, rfl, rfl⟩
  · intro o w' h hlog
    cases ht : env.NewTree a with
    | error e =>
      simp only [collapseConfig, ht, Option.some.injEq, Prod.mk.injEq] at h
      exact absurd (by rw [← h.2]) hlog
    | ok tree =>
      cases hm : env.Marshal tree with
      | error e =>
        simp only [collapseConfig, ht, hm, Option.some.injEq, Prod.mk.injEq] at h
        exact absurd (by rw [← h.2]) hlog
      | ok y =>
        simp only [collapseConfig, ht, hm, Option.some.injEq, Prod.mk.injEq] at h
        exact ⟨h.1.symm, tree, y, rfl, hm⟩

/-- Witness of C4: with the sample collaborators, `collapse missing` fails in the
tree builder and `collapse odd` in the marshaller, each without output, and
`collapse .` writes the document. -/
theorem collapseConfig_no_partial_output_witness :
    (∃ err w', collapseConfig sampleEnv ["missing"] emptyWorld = some (some err, w') ∧
      w'.log = [] ∧
      err.Error = "An error occurred trying to build the tree: no such file or directory") ∧
    (∃ err w', collapseConfig sampleEnv ["odd"] emptyWorld = some (some err, w') ∧
      w'.log = [] ∧
      err.Error = "Failed trying to marshal the tree to YAML : cannot marshal") ∧
    (∃ w', collapseConfig sampleEnv ["."] emptyWorld = some (none, w') ∧
      w'.log = ["version: 2\n"]) := by
  refine ⟨?_, ?_, ?_⟩
  · obtain ⟨err, w', h, hl, _, he, _⟩ :=
      (collapseConfig_no_partial_output sampleEnv "missing" emptyWorld).1
        (.mk "no such file or directory") rfl
    exact ⟨err, w', h, hl, by rw [he]; decide⟩
  · obtain ⟨err, w', h, hl, _, he, _⟩ :=
      (collapseConfig_no_partial_output sampleEnv "odd" emptyWorld).2.1
        false (.mk "cannot marshal") rfl rfl
    exact ⟨err, w', h, hl, by rw [he]; decide⟩
  · obtain ⟨w', h, hl⟩ :=
      (collapseConfig_no_partial_output sampleEnv "." emptyWorld).2.2.1
        true "version: 2" rfl rfl
    exact ⟨w', h, by rw [hl]; decide⟩

/-- The function `validateConfig`, the path it computes being named. -/
theorem validateConfig_eq {τ : Type} (env : Env τ) (configPath : String) (args : List String)
    (w : World) :
    validateConfig env configPath args w =
      match (env.ConfigQuery w.log (effectivePath configPath args)).2 with
      | .error err =>
        (some err, World.mk (env.ConfigQuery w.log (effectivePath configPath args)).1
          (w.calls ++ [Call.ConfigQuery (effectivePath configPath args)]))
      | .ok response =>
        if !response.Valid then
          (response.ToError, World.mk (env.ConfigQuery w.log (effectivePath configPath args)).1
            (w.calls ++ [Call.ConfigQuery (effectivePath configPath args)]))
        else
          (none, World.mk ((env.ConfigQuery w.log (effectivePath configPath args)).1 ++
              ["Config file at " ++ effectivePath configPath args ++ " is valid"])
            (w.calls ++ [Call.ConfigQuery (effectivePath configPath args)])) := by
  rfl

/-- The function `expandConfig` on one argument. -/
theorem expandConfig_eq {τ : Type} (env : Env τ) (a : String) (w : World) :
    expandConfig env [a] w =
      match (env.ConfigQuery w.log a).2 with
      | .error err =>
        some (some err, World.mk (env.ConfigQuery w.log a).1 (w.calls ++ [Call.ConfigQuery a]))
      | .ok response =>
        if !response.Valid then
          some (response.ToError,
            World.mk (env.ConfigQuery w.log a).1 (w.calls ++ [Call.ConfigQuery a]))
        else
          some (none, World.mk ((env.ConfigQuery w.log a).1 ++ [response.OutputYaml])
            (w.calls ++ [Call.ConfigQuery a])) := by
  rfl

theorem validateConfig_error {τ : Type} (env : Env τ) (configPath : String)
    (args : List String) (w : World) (e : GoError)
    (hq : (env.ConfigQuery w.log (effectivePath configPath args)).2 = .error e) :
    validateConfig env configPath args w =
      (some e, World.mk (env.ConfigQuery w.log (effectivePath configPath args)).1
        (w.calls ++ [Call.ConfigQuery (effectivePath configPath args)])) := by
  rw [validateConfig_eq, hq]

theorem validateConfig_invalid {τ : Type} (env : Env τ) (configPath : String)
    (args : List String) (w : World) (response : ConfigResponse)
    (hq : (env.ConfigQuery w.log (effectivePath configPath args)).2 = .ok response)
    (hv : response.Valid = false) :
    validateConfig env configPath args w =
      (response.ToError, World.mk (env.ConfigQuery w.log (effectivePath configPath args)).1
        (w.calls ++ [Call.ConfigQuery (effectivePath configPath args)])) := by
  rw [validateConfig_eq, hq]
  simp [hv]

theorem validateConfig_valid {τ : Type} (env : Env τ) (configPath : String)
    (args : List String) (w : World) (response : ConfigResponse)
    (hq : (env.ConfigQuery w.log (effectivePath configPath args)).2 = .ok response)
    (hv : response.Valid = true) :
    validateConfig env configPath args w =
      (none, World.mk ((env.ConfigQuery w.log (effectivePath configPath args)).1 ++
          ["Config file at " ++ effectivePath configPath args ++ " is valid"])
        (w.calls ++ [Call.ConfigQuery (effectivePath configPath args)])) := by
  rw [validateConfig_eq, hq]
  simp [hv]

theorem surfaced_error (e : GoError) : SurfacedVerbatim (.error e) (some e) := by
  refine ⟨?_, ?_, ?_, ?_⟩
  · intro err h; simp only [Except.error.injEq] at h; rw [h]
  · intro response h; simp at h
  · intro response h; simp at h
  · simp

theorem surfaced_invalid (response : ConfigResponse) (hv : response.Valid = false) :
    SurfacedVerbatim (.ok response) response.ToError := by
  refine ⟨?_, ?_, ?_, ?_⟩
  · intro err h; simp at h
  · intro r h _; simp only [Except.ok.injEq] at h; rw [h]
  · intro r h hr; simp only [Except.ok.injEq] at h; subst h; rw [hv] at hr; simp at hr
  · constructor
    · intro h; exact ⟨response, rfl, Or.inr h⟩
    · rintro ⟨r, h, hr⟩
      simp only [Except.ok.injEq] at h
      subst h
      rcases hr with hr | hr
      · rw [hv] at hr; simp at hr
      · exact hr

theorem surfaced_valid (response : ConfigResponse) (hv : response.Valid = true) :
    SurfacedVerbatim (.ok response) none := by
  refine ⟨?_, ?_, ?_, ?_⟩
  · intro err h; simp at h
  · intro r h hr; simp only [Except.ok.injEq] at h; subst h; rw [hv] at hr; simp at hr
  · intro _ _ _; rfl
  · exact ⟨fun _ => ⟨response, rfl, Or.inl hv⟩, fun _ => rfl⟩

/-- C5, counterexample.  The remote query gives no error and a response that is
not valid and whose `ToError()` is `nil`: `validateConfig` and `expandConfig`
both return `nil`, though the response is not valid. -/
theorem remote_failures_nil_counterexample :
    (silentEnv.ConfigQuery [] "bad.yml").2 =
        .ok { Valid := false, OutputYaml := "", ToError := none } ∧
      (validateConfig silentEnv "" ["bad.yml"] emptyWorld).1 = none ∧
      expandConfig silentEnv ["bad.yml"] emptyWorld =
        some (none, World.mk [] [Call.ConfigQuery "bad.yml"]) :=
  ⟨rfl, rfl, rfl⟩

/-- C5, amended.  Remote failures are surfaced verbatim by `validate` and
`expand`.  For the path each command queries and whatever the remote query
gives for it, the command returns the query's error unchanged when there is
one, the `ToError()` of the response when the response is not valid, and `nil`
when the response is valid; so it returns `nil` if and only if the query has
given no error and the response is valid or its `ToError()` is `nil`. -/
theorem remote_failures_surfaced_verbatim {τ : Type} (env : Env τ) (configPath : String)
    (args : List String) (a : String) (w : World) :
    (∃ path, (validateConfig env configPath args w).2.calls =
        w.calls ++ [Call.ConfigQuery path] ∧
      SurfacedVerbatim (env.ConfigQuery w.log path).2 (validateConfig env configPath args w).1) ∧
    (∃ o w', expandConfig env [a] w = some (o, w') ∧
      w'.calls = w.calls ++ [Call.ConfigQuery a] ∧
      SurfacedVerbatim (env.ConfigQuery w.log a).2 o) := by
  constructor
  · refine ⟨effectivePath configPath args, ?_⟩
    cases hq : (env.ConfigQuery w.log (effectivePath configPath args)).2 with
    | error e =>
      rw [validateConfig_error env configPath args w e hq]
      exact ⟨rfl, surfaced_error e⟩
    | ok response =>
      cases hv : response.Valid with
      | false =>
        rw [validateConfig_invalid env configPath args w response hq hv]
        exact ⟨rfl, surfaced_invalid response hv⟩
      | true =>
        rw [validateConfig_valid env configPath args w response hq hv]
        exact ⟨rfl, surfaced_valid response hv⟩
  · rw [expandConfig_eq]
    cases hq : (env.ConfigQuery w.log a).2 with
    | error e => exact ⟨_, _, rfl, rfl, surfaced_error e⟩
    | ok response =>
      cases hv : response.Valid with
      | false =>
        simp only [hv, Bool.not_false, if_true]
        exact ⟨_, _, rfl, rfl, surfaced_invalid response hv⟩
      | true =>
        simp only [hv, Bool.not_true, Bool.false_eq_true, if_false]
        exact ⟨_, _, rfl, rfl, surfaced_valid response hv⟩

/-- Witness of C5: with the sample collaborators `validate down.yml` returns the
query's error, `validate bad.yml` the response's `ToError()`, which is not
`nil`, and `expand ok.yml` returns `nil`. -/
theorem remote_failures_surfaced_verbatim_witness :
    (validateConfig sampleEnv "" ["down.yml"] emptyWorld).1 =
        some (.mk "service unavailable") ∧
      (validateConfig sampleEnv "" ["bad.yml"] emptyWorld).1 = some (.mk "jobs: required") ∧
      ((validateConfig sampleEnv "" ["bad.yml"] emptyWorld).1 = none ↔
        ∃ response, (sampleEnv.ConfigQuery [] "bad.yml").2 = .ok response ∧
          (response.Valid = true ∨ response.ToError = none)) ∧
      (∃ w', expandConfig sampleEnv ["ok.yml"] emptyWorld = some (none, w')) := by
  obtain ⟨⟨p1, hp1, h1⟩, _⟩ :=
    remote_failures_surfaced_verbatim sampleEnv "" ["down.yml"] "ok.yml" emptyWorld
  obtain ⟨⟨p2, hp2, h2⟩, o, w', he, _, h3⟩ :=
    remote_failures_surfaced_verbatim sampleEnv "" ["bad.yml"] "ok.yml" emptyWorld
  have e1 : p1 = "down.yml" := by
    have : (validateConfig sampleEnv "" ["down.yml"] emptyWorld).2.calls =
        [Call.ConfigQuery "down.yml"] := by decide
    rw [this] at hp1
    simpa [emptyWorld] using hp1.symm
  have e2 : p2 = "bad.yml" := by
    have : (validateConfig sampleEnv "" ["bad.yml"] emptyWorld).2.calls =
        [Call.ConfigQuery "bad.yml"] := by decide
    rw [this] at hp2
    simpa [emptyWorld] using hp2.symm
  subst e1 e2
  refine ⟨h1.1 _ rfl, ?_, h2.2.2.2, ?_⟩
  · exact h2.2.1 ⟨false, "", some (.mk "jobs: required")⟩ rfl rfl
  · have : o = none := h3.2.2.1 ⟨true, "version: 2", none⟩ rfl rfl
    subst this
    exact ⟨w', he⟩

/-- C6. `expandConfig` queries its positional argument and writes the expanded
document.  For one positional argument the one remote query made is for that
argument (the override and the default path are no input of `expandConfig`);
when the query gives a valid response, `expandConfig` returns `nil` and all it
adds to the sink, as the query left it, is `OutputYaml`, as it is; when the
query fails, or gives a response that is not valid, it adds nothing. -/
theorem expandConfig_queries_argument {τ : Type} (env : Env τ) (a : String) (w : World) :
    ∃ o w', expandConfig env [a] w = some (o, w') ∧
      w'.calls = w.calls ++ [Call.ConfigQuery a] ∧
      (∀ response, (env.ConfigQuery w.log a).2 = .ok response → response.Valid = true →
        o = none ∧ w'.log = (env.ConfigQuery w.log a).1 ++ [response.OutputYaml]) ∧
      (∀ err, (env.ConfigQuery w.log a).2 = .error err →
        o = some err ∧ w'.log = (env.ConfigQuery w.log a).1) ∧
      (∀ response, (env.ConfigQuery w.log a).2 = .ok response → response.Valid = false →
        o = response.ToError ∧ w'.log = (env.ConfigQuery w.log a).1) := by
  rw [expandConfig_eq]
  cases hq : (env.ConfigQuery w.log a).2 with
  | error e =>
    refine ⟨_, _, rfl, rfl, ?_, ?_, ?_⟩
    · intro r h; simp at h
    · intro err h; simp only [Except.error.injEq] at h; subst h; exact ⟨rfl, rfl⟩
    · intro r h; simp at h
  | ok response =>
    cases hv : response.Valid with
    | false =>
      simp only [hv, Bool.not_false, if_true]
      refine ⟨_, _, rfl, rfl, ?_, ?_, ?_⟩
      · intro r h hr; simp only [Except.ok.injEq] at h; subst h; rw [hv] at hr; simp at hr
      · intro err h; simp at h
      · intro r h _; simp only [Except.ok.injEq] at h; subst h; exact ⟨rfl, rfl⟩
    | true =>
      simp only [hv, Bool.not_true, Bool.false_eq_true, if_false]
      refine ⟨_, _, rfl, rfl, ?_, ?_, ?_⟩
      · intro r h _; simp only [Except.ok.injEq] at h; subst h; exact ⟨rfl, rfl⟩
      · intro err h; simp at h
      · intro r h hr; simp only [Except.ok.injEq] at h; subst h; rw [hv] at hr; simp at hr

/-- Witness of C6: with the sample collaborators `expand ok.yml` writes the
expanded document and nothing else, `expand bad.yml` and `expand down.yml`
write nothing. -/
theorem expandConfig_queries_argument_witness :
    expandConfig sampleEnv ["ok.yml"] emptyWorld =
        some (none, { log := ["version: 2"], calls := [Call.ConfigQuery "ok.yml"] }) ∧
      (∃ o w', expandConfig sampleEnv ["bad.yml"] emptyWorld = some (o, w') ∧ w'.log = []) ∧
      (∃ o w', expandConfig sampleEnv ["down.yml"] emptyWorld = some (o, w') ∧ w'.log = []) := by
  refine ⟨by decide, ?_, ?_⟩
  · obtain ⟨o, w', h, _, _, _, h3⟩ := expandConfig_queries_argument sampleEnv "bad.yml" emptyWorld
    exact ⟨o, w', h, (h3 ⟨false, "", some (.mk "jobs: required")⟩ rfl rfl).2⟩
  · obtain ⟨o, w', h, _, _, h2, _⟩ := expandConfig_queries_argument sampleEnv "down.yml" emptyWorld
    exact ⟨o, w', h, (h2 (.mk "service unavailable") rfl).2⟩

/-- C7. Migration is a pass-through.  For every argument list, the empty one
and those with strings shaped like flags included, `migrateConfig` makes one
call, to `proxy.Exec`, with the command `config migrate` and the arguments as
they are, in their order; it returns what that call returns and writes nothing
to the sink. -/
theorem migrateConfig_pass_through {τ : Type} (env : Env τ) (args : List String) (w : World) :
    (migrateConfig env args w).1 = env.Exec ["config", "migrate"] args ∧
      (migrateConfig env args w).2.calls = w.calls ++ [Call.Exec ["config", "migrate"] args] ∧
      (migrateConfig env args w).2.log = w.log :=
  ⟨rfl, rfl, rfl⟩

/-- C10, counterexample.  The remote query gives no error and a response that is
not valid and whose `ToError()` is `nil`: `validateConfig` returns `nil` and
adds no message to the sink. -/
theorem validateConfig_silent_counterexample :
    (silentEnv.ConfigQuery [] "bad.yml").2 =
        .ok { Valid := false, OutputYaml := "", ToError := none } ∧
      validateConfig silentEnv "" ["bad.yml"] emptyWorld =
        (none, World.mk [] [Call.ConfigQuery "bad.yml"]) :=
  ⟨rfl, rfl⟩

/-- C10, amended.  `validateConfig` reports success exactly when the remote query
accepts the file, for the path it has checked.  With `path` the path of the one
remote query it makes, and the sink compared with the state the query left it
in: `validateConfig` adds nothing or the one message "Config file at `path` is
valid"; it adds the message if and only if the query has given no error and a
valid response; when it adds the message it returns `nil`; when it returns an
error it adds nothing; and when it returns `nil` it has added the message, or
the response is not valid and its `ToError()` is `nil`. -/
theorem validateConfig_reports_success {τ : Type} (env : Env τ) (configPath : String)
    (args : List String) (w : World) :
    ∃ path, (validateConfig env configPath args w).2.calls =
        w.calls ++ [Call.ConfigQuery path] ∧
      ((validateConfig env configPath args w).2.log = (env.ConfigQuery w.log path).1 ∨
        (validateConfig env configPath args w).2.log =
          (env.ConfigQuery w.log path).1 ++ ["Config file at " ++ path ++ " is valid"]) ∧
      ((validateConfig env configPath args w).2.log =
          (env.ConfigQuery w.log path).1 ++ ["Config file at " ++ path ++ " is valid"] ↔
        ∃ response, (env.ConfigQuery w.log path).2 = .ok response ∧ response.Valid = true) ∧
      ((validateConfig env configPath args w).2.log =
          (env.ConfigQuery w.log path).1 ++ ["Config file at " ++ path ++ " is valid"] →
        (validateConfig env configPath args w).1 = none) ∧
      ((validateConfig env configPath args w).1 ≠ none →
        (validateConfig env configPath args w).2.log = (env.ConfigQuery w.log path).1) ∧
      ((validateConfig env configPath args w).1 = none →
        (validateConfig env configPath args w).2.log =
            (env.ConfigQuery w.log path).1 ++ ["Config file at " ++ path ++ " is valid"] ∨
          ∃ response, (env.ConfigQuery w.log path).2 = .ok response ∧
            response.Valid = false ∧ response.ToError = none) := by
  refine ⟨effectivePath configPath args, ?_⟩
  have hne : ∀ (l : List String) (m : String), l ≠ l ++ [m] := by
    intro l m h
    have := congrArg List.length h
    simp at this
  cases hq : (env.ConfigQuery w.log (effectivePath configPath args)).2 with
  | error e =>
    rw [validateConfig_error env configPath args w e hq]
    refine ⟨rfl, Or.inl rfl, ⟨fun h => absurd h (hne _ _), ?_⟩, fun h => absurd h (hne _ _),
      fun _ => rfl, ?_⟩
    · rintro ⟨r, hr, _⟩
      simp at hr
    · intro h
      simp at h
  | ok response =>
    cases hv : response.Valid with
    | false =>
      rw [validateConfig_invalid env configPath args w response hq hv]
      refine ⟨rfl, Or.inl rfl, ⟨fun h => absurd h (hne _ _), ?_⟩, fun h => absurd h (hne _ _),
        fun _ => rfl, ?_⟩
      · rintro ⟨r, hr, hrv⟩
        simp only [Except.ok.injEq] at hr
        subst hr
        rw [hv] at hrv
        simp at hrv
      · intro h
        exact Or.inr ⟨response, rfl, hv, h⟩
    | true =>
      rw [validateConfig_valid env configPath args w response hq hv]
      exact ⟨rfl, Or.inr rfl, ⟨fun _ => ⟨response, rfl, hv⟩, fun _ => rfl⟩, fun _ => rfl,
        fun h => absurd rfl h, fun _ => Or.inl rfl⟩

/-- Witness of C10: with the sample collaborators `validate` with no argument and
an empty override checks the default path, returns `nil` and says so;
`validate bad.yml` returns an error and writes nothing. -/
theorem validateConfig_reports_success_witness :
    (validateConfig sampleEnv "" [] emptyWorld).1 = none ∧
      (validateConfig sampleEnv "" [] emptyWorld).2.log =
        ["Config file at .circleci/config.yml is valid"] ∧
      (validateConfig sampleEnv "" ["bad.yml"] emptyWorld).1 ≠ none ∧
      (validateConfig sampleEnv "" ["bad.yml"] emptyWorld).2.log = [] := by
  have pathOf : ∀ (args : List String) (p q : String),
      (validateConfig sampleEnv "" args emptyWorld).2.calls = [Call.ConfigQuery q] →
      (validateConfig sampleEnv "" args emptyWorld).2.calls =
        emptyWorld.calls ++ [Call.ConfigQuery p] → p = q := by
    intro args p q h1 h2
    rw [h1] at h2
    simpa [emptyWorld] using h2.symm
  obtain ⟨p1, hp1, _, h3, _, _, _⟩ := validateConfig_reports_success sampleEnv "" [] emptyWorld
  obtain ⟨p2, hp2, _, _, _, h5, _⟩ :=
    validateConfig_reports_success sampleEnv "" ["bad.yml"] emptyWorld
  have e1 := pathOf [] p1 ".circleci/config.yml" (by decide) hp1
  have e2 := pathOf ["bad.yml"] p2 "bad.yml" (by decide) hp2
  subst e1 e2
  exact ⟨by decide, h3.2 ⟨⟨true, "version: 2", none⟩, rfl, rfl⟩, by decide, h5 (by decide)⟩

/-! ## The composer behind `collapseConfig` -/

/-- Every path of a chain of references is reached from its first. -/
theorem mem_chain_reach (ops : PathOps) (fs : FileSystem) (chain : List String) (a : String)
    (hchain : List.Chain' (References ops fs) chain) (hhead : chain.head? = some a) :
    ∀ x ∈ chain, Relation.ReflTransGen (References ops fs) a x := by
  intro x hx
  obtain ⟨l, r, rfl⟩ := List.append_of_mem hx
  have hsplit : l ++ x :: r = (l ++ [x]) ++ r := by simp
  rw [hsplit] at hchain
  refine reach_of_chain ops fs l a x hchain.left_of_append ?_
  cases l with
  | nil => simpa using hhead
  | cons b l' => simpa using hhead

/-- In files closed under reference, what a document references is a parsed
document. -/
theorem parsed_of_references (ops : PathOps) (fs : FileSystem) (hclosed : closed ops fs = true)
    (p q : String) (h : References ops fs p q) : (readDoc fs q).isSome = true := by
  obtain ⟨content, kr, hl, hkr, rfl⟩ := scan_of_references ops fs p q h
  obtain ⟨c, hc⟩ := closed_children ops fs hclosed p content hl kr hkr
  rw [readDoc_of_lookup fs _ c hc]
  rfl

/-- In files closed under reference, what a parsed document reaches by references
is a parsed document. -/
theorem parsed_of_reach (ops : PathOps) (fs : FileSystem) (hclosed : closed ops fs = true)
    (a : String) (ha : (readDoc fs a).isSome = true) :
    ∀ q, Relation.ReflTransGen (References ops fs) a q → (readDoc fs q).isSome = true := by
  intro q hq
  induction hq with
  | refl => exact ha
  | tail _ hstep _ => exact parsed_of_references ops fs hclosed _ _ hstep

/-- In files closed under reference, a chain of references from a parsed document
that holds no path twice is no longer than the list of files. -/
theorem nodup_chain_le_files (ops : PathOps) (fs : FileSystem) (hclosed : closed ops fs = true)
    (a : String) (ha : (readDoc fs a).isSome = true) (chain : List String)
    (hnodup : chain.Nodup) (hchain : List.Chain' (References ops fs) chain)
    (hhead : chain.head? = some a) : chain.length ≤ fs.length := by
  have hsub : chain ⊆ fs.map Prod.fst := by
    intro x hx
    have hparsed := parsed_of_reach ops fs hclosed a ha x
      (mem_chain_reach ops fs chain a hchain hhead x hx)
    obtain ⟨c, hc⟩ := Option.isSome_iff_exists.1 hparsed
    exact List.mem_map.2 ⟨(x, .document c), lookup_mem fs x _ (lookup_of_readDoc fs x c hc), rfl⟩
  have := (hnodup.subperm hsub).length_le
  simpa using this

/-- The first path of the chain of a failure is the path the walk started at. -/
theorem head_of_stack (a : String) (stack : List String) (q : String)
    (h : ([] ++ [a]) <+: (stack ++ [q])) : (stack ++ [q]).head? = some a := by
  obtain ⟨t, ht⟩ := h
  rw [← ht]
  rfl

/-- The function `collapseConfig` on one argument, over the composer, when the
composer fails. -/
theorem collapseConfig_composer_error {τ : Type} (env : Env τ) (describe : ComposeError → String)
    (encode : Value → String) (maxDepth : Nat) (ops : PathOps) (fs : FileSystem)
    (rootPath : String) (w : World) (e : ComposeError)
    (h : compose maxDepth ops fs rootPath = .error e) :
    collapseConfig (composerEnv env describe encode maxDepth ops fs) [rootPath] w =
      some (some (.withMessage (.mk (describe e)) "An error occurred trying to build the tree"),
        World.mk w.log (w.calls ++ [Call.NewTree rootPath])) := by
  simp only [collapseConfig, composerEnv, h, errorsWrap]

/-- C8, counterexample.  In `danglingFs` the root `a.yml` references itself
directly, after a reference to a file that does not exist: composing it fails
with `NotFound` for that file, not with `CycleDetected`.  In `cycleFs`, where
`a.yml` references itself through `b.yml`, a maximum depth of one document makes
the composer fail with `DepthExceeded` at `b.yml`. -/
theorem compose_cycle_counterexample :
    References flat danglingFs "a.yml" "a.yml" ∧
      compose 8 flat danglingFs "a.yml" = .error (.NotFound "missing.yml") ∧
      References flat cycleFs "a.yml" "b.yml" ∧ References flat cycleFs "b.yml" "a.yml" ∧
      compose 1 flat cycleFs "a.yml" = .error (.DepthExceeded "b.yml") :=
  ⟨by decide, rfl, by decide, by decide, rfl⟩

/-- C8, amended.  When the root references itself, directly or through a chain of
references, composing it fails, and `collapseConfig` returns that failure,
wrapped, and writes nothing.  The failure is `CycleDetected` with a chain exactly
when the walk closes a cycle with that chain before any other failure
(`ClosesCycle`: along the chain every reference that comes before the one the
chain follows composes without failure, and the stack has room).  The chain of
a `CycleDetected` is the stack of the walk, which starts at the root, holds no
path twice and goes by references, followed by the repeated path, one of the
paths on the stack.  In particular the failure is `CycleDetected` when every
path the root reaches by references is a parsed document and no chain of
references from the root without a repeated path is longer than the maximum
depth. -/
theorem compose_cycle_detected {τ : Type} (env : Env τ) (describe : ComposeError → String)
    (encode : Value → String) (maxDepth : Nat) (ops : PathOps) (fs : FileSystem)
    (rootPath : String) (w : World)
    (hcycle : Relation.TransGen (References ops fs) (ops.normalize rootPath)
      (ops.normalize rootPath)) :
    (∃ e, compose maxDepth ops fs rootPath = .error e ∧
      collapseConfig (composerEnv env describe encode maxDepth ops fs) [rootPath] w =
        some (some (.withMessage (.mk (describe e)) "An error occurred trying to build the tree"),
          World.mk w.log (w.calls ++ [Call.NewTree rootPath]))) ∧
    (∀ chain, compose maxDepth ops fs rootPath = .error (.CycleDetected chain) ↔
      ClosesCycle ops fs maxDepth [] rootPath chain) ∧
    (∀ chain, compose maxDepth ops fs rootPath = .error (.CycleDetected chain) →
      ∃ stack repeated, chain = stack ++ [repeated] ∧
        stack.head? = some (ops.normalize rootPath) ∧ repeated ∈ stack ∧ stack.Nodup ∧
        List.Chain' (References ops fs) (stack ++ [repeated])) ∧
    ((∀ q, Relation.ReflTransGen (References ops fs) (ops.normalize rootPath) q →
        (readDoc fs q).isSome = true) →
      (∀ chain : List String, chain.Nodup → List.Chain' (References ops fs) chain →
        chain.head? = some (ops.normalize rootPath) → chain.length ≤ maxDepth) →
      ∃ chain, compose maxDepth ops fs rootPath = .error (.CycleDetected chain)) := by
  obtain ⟨e, he⟩ := compose_cycle_fails ops fs maxDepth rootPath hcycle
  refine ⟨⟨e, he, collapseConfig_composer_error env describe encode maxDepth ops fs rootPath w
    e he⟩, fun chain => composeAux_cycle_iff ops fs maxDepth [] rootPath chain, ?_, ?_⟩
  · intro chain hchain
    obtain ⟨stack, q, hpre, hnodup, hrefs, hkind⟩ :=
      composeAux_error_sound ops fs maxDepth [] rootPath _ List.nodup_nil
        (List.chain'_singleton _) hchain
    have hhead := head_of_stack _ stack q hpre
    rcases hkind with ⟨hc, hmem⟩ | ⟨hc, _⟩ | ⟨d, hc, _⟩ | ⟨hc, _, _⟩
    · simp only [ComposeError.CycleDetected.injEq] at hc
      refine ⟨stack, q, hc, ?_, hmem, hnodup, hrefs⟩
      cases stack with
      | nil => simp at hmem
      | cons s rest => simpa using hhead
    · simp at hc
    · simp at hc
    · simp at hc
  · intro hparsed hdepth
    obtain ⟨stack, q, hpre, hnodup, hrefs, hkind⟩ :=
      composeAux_error_sound ops fs maxDepth [] rootPath e List.nodup_nil
        (List.chain'_singleton _) he
    have hhead := head_of_stack _ stack q hpre
    have hq := hparsed q (reach_of_chain ops fs stack _ q hrefs hhead)
    obtain ⟨c, hc⟩ := Option.isSome_iff_exists.1 hq
    have hl := lookup_of_readDoc fs q c hc
    rcases hkind with ⟨hcyc, _⟩ | ⟨_, hnone⟩ | ⟨d, _, hbad⟩ | ⟨_, hnot, hlen⟩
    · exact ⟨stack ++ [q], by rw [← hcyc]; exact he⟩
    · rw [hl] at hnone; simp at hnone
    · rw [hl] at hbad; simp at hbad
    · exfalso
      have hnd : (stack ++ [q]).Nodup := by
        rw [List.nodup_append]
        refine ⟨hnodup, List.nodup_singleton _, ?_⟩
        intro x hx hx'
        rw [List.mem_singleton] at hx'
        subst hx'
        exact hnot hx
      have := hdepth (stack ++ [q]) hnd hrefs hhead
      simp only [List.length_append, List.length_singleton, hlen, List.length_nil] at this
      omega

/-- Witness of C8: the specification's example, `a.yml` referencing `b.yml`, which
references `a.yml`, with room for two documents: the walk closes the cycle with
the chain `a.yml`, `b.yml`, `a.yml`, and `collapse a.yml` returns the failure
and writes nothing. -/
theorem compose_cycle_detected_witness :
    Relation.TransGen (References flat cycleFs) "a.yml" "a.yml" ∧
      compose 2 flat cycleFs "a.yml" = .error (.CycleDetected ["a.yml", "b.yml", "a.yml"]) ∧
      ClosesCycle flat cycleFs 2 [] "a.yml" ["a.yml", "b.yml", "a.yml"] ∧
      (∃ stack repeated, ["a.yml", "b.yml", "a.yml"] = stack ++ [repeated] ∧
        stack.head? = some "a.yml" ∧ repeated ∈ stack) ∧
      (∃ chain, compose 2 flat cycleFs "a.yml" = .error (.CycleDetected chain)) ∧
      (∃ e, compose 2 flat cycleFs "a.yml" = .error e ∧
        collapseConfig (composerEnv sampleEnv describeError encodeFlow 2 flat cycleFs) ["a.yml"]
            emptyWorld =
          some (some (.withMessage (.mk (describeError e))
            "An error occurred trying to build the tree"),
            World.mk [] ([] ++ [Call.NewTree "a.yml"]))) :=
  have hcycle : Relation.TransGen (References flat cycleFs) "a.yml" "a.yml" :=
    Relation.TransGen.tail
      (Relation.TransGen.single (show References flat cycleFs "a.yml" "b.yml" by decide))
      (show References flat cycleFs "b.yml" "a.yml" by decide)
  have hall := compose_cycle_detected sampleEnv describeError encodeFlow 2 flat cycleFs "a.yml"
    emptyWorld hcycle
  have hrun : compose 2 flat cycleFs "a.yml" =
      .error (.CycleDetected ["a.yml", "b.yml", "a.yml"]) := rfl
  have hchain := hall.2.2.1 _ hrun
  have hfound := hall.2.2.2
    (parsed_of_reach flat cycleFs (by decide) "a.yml" (by decide))
    (fun chain hnodup hrefs hhead =>
      nodup_chain_le_files flat cycleFs (by decide) "a.yml" (by decide) chain hnodup hrefs hhead)
  ⟨hcycle, hrun, (hall.2.1 _).1 hrun,
    hchain.elim fun stack h => h.elim fun repeated h => ⟨stack, repeated, h.1, h.2.1, h.2.2.1⟩,
    hfound, hall.1⟩

end CircleCI
